import Mathlib

/-!
Verification development for the `root2json` repository (files `j2r.py` and
`r2j.py`): two one-directional converters between a JSON histogram format
(`ebins`/`czbins`/`map` records) and ROOT `TH1`/`TH2`/`TH3` histograms.

Shallow embedding conventions:
* Python floats are modelled by `ℝ`; `numpy.log10` is `Real.logb 10`,
  `numpy.power(10, ·)` is real exponentiation (`rpow`).
* Parsed JSON values are the inductive `JValue`; Python dicts are association
  lists in insertion order, with `dinsert` giving dict-assignment semantics
  (overwrite in place, append if new).
* A ROOT axis is its list of bin edges: `GetXmin` is the first edge,
  `GetBinUpEdge i` is the `i`-th edge (1-based), `GetNbins` is `length - 1`.
  A ROOT histogram carries its axes and a 1-based bin-content function;
  `SetBinContent` is pointwise function update.
-/

namespace RootJson

/-- JSON values as produced by Python's `json.load`: objects (dicts keeping
insertion order), arrays, numbers, strings, booleans, null. -/
inductive JValue : Type where
  | obj (fields : List (String × JValue))
  | arr (items : List JValue)
  | num (x : ℝ)
  | str (s : String)
  | boolean (b : Bool)
  | null

/-- Insert a string into an already sorted list, keeping it sorted. -/
def insertSorted (s : String) : List String → List String
  | [] => [s]
  | t :: ts => if s ≤ t then s :: t :: ts else t :: insertSorted s ts

/-- Insertion sort on strings: models Python's `sorted` on `obj.keys()`. -/
def ssort : List String → List String
  | [] => []
  | s :: ts => insertSorted s (ssort ts)

/-- `is_hist` from `j2r.py` (lines 24-29): a value is a histogram record iff
it is a dict and its sorted key list is exactly `['czbins','ebins','map']`. -/
def is_hist : JValue → Bool
  | .obj fields => ssort (fields.map Prod.fst) == ["czbins", "ebins", "map"]
  | _ => false

/-- The key synthesis of `find_hist` (`j2r.py` line 54):
`newkey = (histkey + '_' if histkey else '') + key`.  Both `None` and the
empty string are falsy, in which case the separator is omitted. -/
def newkey : Option String → String → String
  | none, k => k
  | some s, k => if s = "" then k else s ++ "_" ++ k

/-- Python dict assignment `d[k] = v` on an insertion-ordered association
list: overwrite in place when the key is present, append otherwise. -/
def dinsert {κ α : Type} [DecidableEq κ] (l : List (κ × α)) (k : κ) (v : α) :
    List (κ × α) :=
  if l.any (fun p => decide (p.1 = k)) then
    l.map (fun p => if p.1 = k then (k, v) else p)
  else l ++ [(k, v)]

/-- Accumulator type of `find_hist`: the `histlist` dict, whose keys are the
synthesized paths (`None` at the root, hence `Option String`). -/
abbrev HistList : Type := List (Option String × JValue)

mutual

/-- `find_hist` from `j2r.py` (lines 20-57).  If the value qualifies, record
it under the accumulated key and stop; if it is a dict or a list, recurse
into the children with extended keys (list children are keyed by the
stringified index); otherwise leave the accumulator unchanged.  The dict
accumulator is threaded explicitly (the Python source mutates `histlist`
in place and returns it). -/
def find_hist (v : JValue) (histkey : Option String) (histlist : HistList) :
    HistList :=
  if is_hist v then dinsert histlist histkey v
  else
    match v with
    | .obj fields => findFields fields histkey histlist
    | .arr items => findItems items 0 histkey histlist
    | _ => histlist

/-- The loop of `find_hist` over the items of a dict. -/
def findFields (fields : List (String × JValue)) (histkey : Option String)
    (histlist : HistList) : HistList :=
  match fields with
  | [] => histlist
  | (k, v) :: rest =>
      findFields rest histkey (find_hist v (some (newkey histkey k)) histlist)

/-- The loop of `find_hist` over the elements of a list, keyed by
`str(index)` starting from `i`. -/
def findItems (items : List JValue) (i : Nat) (histkey : Option String)
    (histlist : HistList) : HistList :=
  match items with
  | [] => histlist
  | v :: rest =>
      findItems rest (i + 1) histkey
        (find_hist v (some (newkey histkey (toString i))) histlist)

end

mutual

/-- Specification of discovery: the list of (synthesized path, record) pairs
for the maximal qualifying sub-objects of `v`, in traversal order.  A
qualifying record is recorded and not descended into. -/
def histPaths (v : JValue) (histkey : Option String) :
    List (Option String × JValue) :=
  if is_hist v then [(histkey, v)]
  else
    match v with
    | .obj fields => pathsFields fields histkey
    | .arr items => pathsItems items 0 histkey
    | _ => []

/-- Paths of qualifying records below a list of dict fields. -/
def pathsFields (fields : List (String × JValue)) (histkey : Option String) :
    List (Option String × JValue) :=
  match fields with
  | [] => []
  | (k, v) :: rest =>
      histPaths v (some (newkey histkey k)) ++ pathsFields rest histkey

/-- Paths of qualifying records below the elements of a list. -/
def pathsItems (items : List JValue) (i : Nat) (histkey : Option String) :
    List (Option String × JValue) :=
  match items with
  | [] => []
  | v :: rest =>
      histPaths v (some (newkey histkey (toString i))) ++
        pathsItems rest (i + 1) histkey

end

/-- `numpy.log10`, modelled on `ℝ`. -/
noncomputable def log10 (x : ℝ) : ℝ := Real.logb 10 x

/-- `numpy.power(10, x)` for a real exponent, modelled by real `rpow`. -/
noncomputable def pow10 (x : ℝ) : ℝ := (10 : ℝ) ^ x

/-- `numpy.linspace(start, stop, num)`: `num` points evenly spaced between
`start` and `stop`, endpoints included (for `num = 1` the single point is
`start`; Lean's division by zero gives the same result). -/
noncomputable def linspace (start stop : ℝ) (num : Nat) : List ℝ :=
  (List.range num).map
    (fun i => start + i * (stop - start) / ((num : ℝ) - 1))

/-- `numpy.logspace(start, stop, num)`: `10 ^ ·` applied to `linspace`. -/
noncomputable def logspace (start stop : ℝ) (num : Nat) : List ℝ :=
  (linspace start stop num).map pow10

/-- `numpy.ndarray.max()` of a nonempty list (junk value `0` for `[]`,
where numpy raises). -/
def amax : List ℝ → ℝ
  | [] => 0
  | x :: xs => xs.foldl max x

/-- The default `maxdev = 1e-5` tolerance of `is_logarithmic`. -/
noncomputable def defaultMaxdev : ℝ := 1e-5

/-- `is_logarithmic` from `j2r.py` (lines 59-63): false as soon as some edge
is negative; otherwise compare the edges with the logarithmic reference grid
`logspace(log10(edges[0]), log10(edges[-1]), len(edges))` and accept iff the
maximal absolute deviation is strictly below `maxdev`.  The early `return
False` of the source is the first conjunct. -/
noncomputable def is_logarithmic (edges : List ℝ) (maxdev : ℝ) : Prop :=
  (¬ ∃ x ∈ edges, x < 0) ∧
    amax (List.zipWith (fun a b => |a - b|) edges
        (logspace (log10 edges.headI) (log10 edges.getLastI) edges.length))
      < maxdev

/-- A JSON-side 2D histogram record: the three trusted fields of a
qualifying dict, with `map` indexed `[energy][cos-zenith]`. -/
structure HistRecord : Type where
  ebins : List ℝ
  czbins : List ℝ
  map : List (List ℝ)

/-- A ROOT `TH1`: its X axis (as the list of bin edges) and its bin-content
function (1-based bin numbers). -/
structure TH1 : Type where
  xedges : List ℝ
  content : Nat → ℝ

/-- A ROOT `TH2F`: name, title, the two axes as bin-edge lists, the 1-based
bin-content function, the axis titles and the cosmetic state set by
`json2root`. -/
structure TH2F : Type where
  name : String
  title : String
  xedges : List ℝ
  yedges : List ℝ
  content : Nat → Nat → ℝ
  xtitle : String
  ytitle : String
  stats : Bool
  labelSize : ℝ
  titleSize : ℝ

/-- A ROOT `TH3`: three axes as bin-edge lists and the 1-based bin-content
function. -/
structure TH3 : Type where
  xedges : List ℝ
  yedges : List ℝ
  zedges : List ℝ
  content : Nat → Nat → Nat → ℝ

/-- `TH2F.SetBinContent(i, j, v)`: pointwise update of the content
function. -/
def TH2F.setBinContent (h : TH2F) (i j : Nat) (v : ℝ) : TH2F :=
  { h with content := fun a b => if a = i ∧ b = j then v else h.content a b }

/-- `GetNbins` of an axis stored as its edge list. -/
def nbinsOf (edges : List ℝ) : Nat := edges.length - 1

/-- The edge extraction loop shared by all converters in `r2j.py`:
`[axis.GetXmin()]` followed by `axis.GetBinUpEdge(ibin)` for
`ibin = 1 .. axis.GetNbins()`. -/
def axisEdges (edges : List ℝ) : List ℝ :=
  edges.headI :: (List.range (nbinsOf edges)).map (fun i => edges.getD (i + 1) 0)

/-- `convert1Dhisto` from `r2j.py` (lines 16-39): extract the X-axis edges,
un-log them (`numpy.power(10, ·)`), and read the bin contents into a 0-based
array (`dmap[ebin-1] = GetBinContent(ebin)` for `ebin = 1 .. len(ebins)-1`).
The result dict has keys `ebins` and `entries`. -/
noncomputable def convert1Dhisto (h : TH1) : List ℝ × List ℝ :=
  let ebins := (axisEdges h.xedges).map pow10
  let dmap := (List.range (ebins.length - 1)).map (fun i => h.content (i + 1))
  (ebins, dmap)

/-- `convert2Dhisto` from `r2j.py` (lines 42-72): extract both axes' edges,
un-log the X (energy) axis, keep the Y (cos-zenith) axis linear, and read
the contents into `dmap[ebin-1][czbin-1] = GetBinContent(ebin, czbin)`. -/
noncomputable def convert2Dhisto (h : TH2F) : HistRecord :=
  let ebins := (axisEdges h.xedges).map pow10
  let czbins := axisEdges h.yedges
  let dmap := (List.range (ebins.length - 1)).map
    (fun ie => (List.range (czbins.length - 1)).map
      (fun icz => h.content (ie + 1) (icz + 1)))
  ⟨ebins, czbins, dmap⟩

/-- The result dict of `convert3Dhisto`: keys `ebins`, `czbins_true`,
`czbins_reco`, `map`. -/
structure Rec3 : Type where
  ebins : List ℝ
  czbins_true : List ℝ
  czbins_reco : List ℝ
  map : List (List (List ℝ))

/-- `convert3Dhisto` from `r2j.py` (lines 75-114): X axis is reco
cos-zenith, Y is true cos-zenith, Z is energy (un-logged); contents go to
`dmap[czb_re-1][czb_tr-1][ebin-1] = GetBinContent(czb_re, czb_tr, ebin)`. -/
noncomputable def convert3Dhisto (h : TH3) : Rec3 :=
  let czbins_reco := axisEdges h.xedges
  let czbins_true := axisEdges h.yedges
  let ebins := (axisEdges h.zedges).map pow10
  let dmap := (List.range (czbins_reco.length - 1)).map
    (fun ir => (List.range (czbins_true.length - 1)).map
      (fun it => (List.range (ebins.length - 1)).map
        (fun ie => h.content (ir + 1) (it + 1) (ie + 1))))
  ⟨ebins, czbins_true, czbins_reco, dmap⟩

/-- The inner loop of the fill: all entries of row `ie` of `map`, set at
energy bin `ie + 1` and cos-zenith bins `icz + 1`. -/
def fillRow (h : TH2F) (ie : Nat) (row : List ℝ) : TH2F :=
  row.enum.foldl (fun hh2 q => hh2.setBinContent (ie + 1) (q.1 + 1) q.2) h

/-- The fill loop of `json2root` (`j2r.py` lines 93-94):
`for (ie,icz),val in numpy.ndenumerate(map): SetBinContent(ie+1, icz+1, val)`.
`numpy.ndenumerate` iterates row-major, i.e. rows in order and each row's
entries in order. -/
def fillMap (h : TH2F) (m : List (List ℝ)) : TH2F :=
  m.enum.foldl (fun hh p => fillRow hh p.1 p.2) h

open Classical in
/-- The per-record body of the `json2root` loop (`j2r.py` lines 75-105):
optionally log-transform the energy edges, build the `TH2F` named by the
record's path key, fill it from `map`, then set titles and cosmetics. -/
noncomputable def json2rootRecord (key : String) (hist : HistRecord) : TH2F :=
  let islog := is_logarithmic hist.ebins defaultMaxdev
  let ebins := if islog then hist.ebins.map log10 else hist.ebins
  let etitle := if islog then "log_{10}(E/GeV)" else "E/GeV"
  let rhist : TH2F :=
    { name := key, title := key, xedges := ebins, yedges := hist.czbins,
      content := fun _ _ => 0, xtitle := "", ytitle := "", stats := true,
      labelSize := 0, titleSize := 0 }
  let filled := fillMap rhist hist.map
  { filled with
    xtitle := etitle
    ytitle := "cos(#theta)"
    stats := false
    labelSize := 0.04
    titleSize := 0.04 }

/-- A JSON number as a Python float (junk `0` for non-numbers, where the
source would raise). -/
def jnum : JValue → ℝ
  | .num x => x
  | _ => 0

/-- A JSON array of numbers as a numeric list. -/
def jlist : JValue → List ℝ
  | .arr l => l.map jnum
  | _ => []

/-- A JSON array of arrays of numbers as a 2D numeric grid. -/
def jgrid : JValue → List (List ℝ)
  | .arr l => l.map jlist
  | _ => []

/-- Python dict access `v[k]` on a JSON object (junk `null` when the key is
missing, where the source would raise `KeyError`). -/
def jget (v : JValue) (k : String) : JValue :=
  match v with
  | .obj fs => (((fs.find? (fun p => decide (p.1 = k))).map Prod.snd).getD .null)
  | _ => .null

/-- The three trusted fields of a qualifying record, as read by
`json2root`. -/
def recordOfJValue (v : JValue) : HistRecord :=
  ⟨jlist (jget v "ebins"), jlist (jget v "czbins"), jgrid (jget v "map")⟩

/-- `json2root` from `j2r.py` (lines 66-107), minus file I/O: discover all
records with `find_hist` and build one `TH2F` per record, named by its path
key.  (On a record discovered at the root the key is `None` and the source
would fail constructing the `TH2F`; that case is modelled by the junk name
`""` and is unreachable in the claims.) -/
noncomputable def json2root (data : JValue) : List TH2F :=
  (find_hist data none []).map
    (fun p => json2rootRecord (p.1.getD "") (recordOfJValue p.2))

/-- An object stored in a ROOT file: one of the three histogram kinds, a
subdirectory (list of keys: name, class name, object), or anything else. -/
inductive RObj : Type where
  | th1 (h : TH1)
  | th2 (h : TH2F)
  | th3 (h : TH3)
  | dir (keys : List (String × String × RObj))
  | other

/-- The nested mapping built by `convertTFile`: histogram records (1D as the
`ebins`/`entries` pair) or subdirectory nodes. -/
inductive JTree : Type where
  | h1 (ebins entries : List ℝ)
  | h2 (r : HistRecord)
  | h3 (r : Rec3)
  | node (entries : List (String × JTree))

/-- `rfile.Get(name)` read back as a `TH1` (junk for another kind, where the
dynamically typed source would misbehave; unreachable in the claims). -/
def RObj.asTH1 : RObj → TH1
  | .th1 h => h
  | _ => ⟨[], fun _ => 0⟩

/-- `rfile.Get(name)` read back as a `TH2F` (junk for another kind). -/
def RObj.asTH2 : RObj → TH2F
  | .th2 h => h
  | _ => ⟨"", "", [], [], fun _ _ => 0, "", "", true, 0, 0⟩

/-- `rfile.Get(name)` read back as a `TH3` (junk for another kind). -/
def RObj.asTH3 : RObj → TH3
  | .th3 h => h
  | _ => ⟨[], [], [], fun _ _ _ => 0⟩

/-- Python's `str.startswith`: prefix test on the character sequences. -/
def startswith (s p : String) : Bool := p.data.isPrefixOf s.data

/-- `convertTFile` from `r2j.py` (lines 116-159): loop over the file's keys
in store order; dispatch on the class-name prefix (`TH1*`, `TH2*`, `TH3*`),
recurse into `TDirectoryFile` entries, and skip anything else (logged at
debug level in the source).  The `histlist` dict is threaded as an explicit
accumulator.  (A `TDirectoryFile` key whose object is not a directory is
junk-modelled as an empty node; unreachable in the claims.) -/
noncomputable def convertTFile :
    List (String × String × RObj) → List (String × JTree) →
      List (String × JTree)
  | [], acc => acc
  | (nm, cls, o) :: rest, acc =>
    if startswith cls "TH1" then
      convertTFile rest
        (dinsert acc nm (JTree.h1 (convert1Dhisto o.asTH1).1
          (convert1Dhisto o.asTH1).2))
    else if startswith cls "TH2" then
      convertTFile rest (dinsert acc nm (JTree.h2 (convert2Dhisto o.asTH2)))
    else if startswith cls "TH3" then
      convertTFile rest (dinsert acc nm (JTree.h3 (convert3Dhisto o.asTH3)))
    else if cls = "TDirectoryFile" then
      match o with
      | .dir ks =>
          convertTFile rest (dinsert acc nm (JTree.node (convertTFile ks [])))
      | _ => convertTFile rest (dinsert acc nm (JTree.node []))
    else
      convertTFile rest acc

/-- Fold a list of (path, record) pairs into an accumulator dict. -/
def dinsertAll (acc : HistList) (l : List (Option String × JValue)) :
    HistList :=
  l.foldl (fun a p => dinsert a p.1 p.2) acc

/-- A concrete qualifying record used by the discovery witnesses. -/
def recA : JValue :=
  JValue.obj [("czbins", .arr [.num 0, .num 1]),
              ("ebins", .arr [.num 1, .num 2]),
              ("map", .arr [.arr [.num 5]])]

/-- A concrete nested structure with two qualifying records, one under a
dict key and one inside a list. -/
def vC5 : JValue := JValue.obj [("a", recA), ("b", JValue.arr [recA])]

/-- First argument of the successive default-argument calls: one record
under key `x`. -/
def vC8a : JValue := JValue.obj [("x", recA)]

/-- Second argument of the successive default-argument calls: one record
under key `y`. -/
def vC8b : JValue := JValue.obj [("y", recA)]

/-- The qualifying record of the spec's JSON→Binary example scenario, as a
parsed JSON value. -/
def jC6 : JValue :=
  JValue.obj [("ebins", .arr [.num 1, .num 10, .num 100]),
              ("czbins", .arr [.num (-1), .num 0, .num 1]),
              ("map", .arr [.arr [.num 1, .num 2], .arr [.num 3, .num 4]])]

/-- The input document of the example scenario:
`{"a": {"ebins":[1,10,100], "czbins":[-1,0,1], "map":[[1,2],[3,4]]}}`. -/
def dataC6 : JValue := JValue.obj [("a", jC6)]

/-- The example record with its fields extracted. -/
def recC6 : HistRecord := ⟨[1, 10, 100], [-1, 0, 1], [[1, 2], [3, 4]]⟩

/-- A concrete record with linear-spaced energy edges, for the round-trip
counterexample. -/
def recC1 : HistRecord := ⟨[1, 2, 100], [0, 1], [[5], [6]]⟩

/-- One call of `find_hist` through its *default* third argument: CPython
evaluates `histlist={}` once at definition time, so every such call shares
(and, because the function mutates `histlist` in place and returns it, also
updates) one dict.  `st` is that shared dict before the call; the call
returns the result together with the dict left for the next call. -/
def find_hist_default (st : HistList) (v : JValue) : HistList × HistList :=
  let r := find_hist v none st
  (r, r)

/-! ### Sorting lemmas for `is_hist` -/

lemma insertSorted_eq (s : String) (l : List String) :
    insertSorted s l = List.orderedInsert (· ≤ ·) s l := by
  induction l with
  | nil => rfl
  | cons t ts ih =>
      simp only [insertSorted, List.orderedInsert, ih]

lemma ssort_eq (l : List String) :
    ssort l = List.insertionSort (· ≤ ·) l := by
  induction l with
  | nil => rfl
  | cons s ts ih => simp only [ssort, List.insertionSort, ih, insertSorted_eq]

lemma ssort_eq_keys_iff (l : List String) :
    ssort l = ["czbins", "ebins", "map"] ↔
      l.Perm ["czbins", "ebins", "map"] := by
  rw [ssort_eq]
  constructor
  · intro h
    exact (List.perm_insertionSort (· ≤ ·) l).symm.trans (h ▸ List.Perm.refl _)
  · intro h
    refine List.eq_of_perm_of_sorted ((List.perm_insertionSort (· ≤ ·) l).trans h)
      (List.sorted_insertionSort (· ≤ ·) l) ?_
    refine List.Pairwise.cons (fun b hb => ?_)
      (List.Pairwise.cons (fun b hb => ?_) (List.pairwise_singleton _ _))
    · fin_cases hb
      · exact String.le_iff_toList_le.mpr (by decide)
      · exact String.le_iff_toList_le.mpr (by decide)
    · fin_cases hb
      exact String.le_iff_toList_le.mpr (by decide)

lemma is_hist_iff (v : JValue) : is_hist v = true ↔
    ∃ fields, v = JValue.obj fields ∧
      (fields.map Prod.fst).Perm ["czbins", "ebins", "map"] := by
  cases v with
  | obj fields =>
      simp only [is_hist, beq_iff_eq, ssort_eq_keys_iff]
      constructor
      · intro h; exact ⟨fields, rfl, h⟩
      · rintro ⟨f, hf, hp⟩
        cases hf
        exact hp
  | arr l => simp [is_hist]
  | num x => simp [is_hist]
  | str s => simp [is_hist]
  | boolean b => simp [is_hist]
  | null => simp [is_hist]

lemma is_hist_obj_true {fields : List (String × JValue)}
    (h : (fields.map Prod.fst).Perm ["czbins", "ebins", "map"]) :
    is_hist (JValue.obj fields) = true :=
  (is_hist_iff _).mpr ⟨fields, rfl, h⟩

lemma is_hist_obj_false {fields : List (String × JValue)}
    (h : ¬ (fields.map Prod.fst).Perm ["czbins", "ebins", "map"]) :
    is_hist (JValue.obj fields) = false := by
  cases hh : is_hist (JValue.obj fields) with
  | false => rfl
  | true =>
      rcases (is_hist_iff _).mp hh with ⟨f, hf, hp⟩
      cases hf
      exact absurd hp h

/-- C3: a value is classified as a histogram record by `is_hist` iff it is a
mapping whose keys are exactly (a permutation of, i.e. sorted equal to)
`["czbins","ebins","map"]`; a mapping with a strict superset of those keys is
not classified; and no validation of the values is performed (any values are
accepted). -/
theorem is_hist_characterization :
    (∀ v : JValue, is_hist v = true ↔
      ∃ fields, v = JValue.obj fields ∧
        (fields.map Prod.fst).Perm ["czbins", "ebins", "map"]) ∧
    (∀ fields : List (String × JValue),
      "czbins" ∈ fields.map Prod.fst → "ebins" ∈ fields.map Prod.fst →
      "map" ∈ fields.map Prod.fst →
      (∃ k ∈ fields.map Prod.fst,
        k ∉ (["czbins", "ebins", "map"] : List String)) →
      is_hist (JValue.obj fields) = false) ∧
    (∀ eb cz mp : JValue,
      is_hist (JValue.obj [("ebins", eb), ("czbins", cz), ("map", mp)]) =
        true) := by
  refine ⟨is_hist_iff, ?_, ?_⟩
  · intro fields _ _ _ hex
    rcases hex with ⟨k, hk, hknot⟩
    refine is_hist_obj_false (fun hp => ?_)
    exact absurd (hp.mem_iff.mp hk) hknot
  · intro eb cz mp
    refine is_hist_obj_true ?_
    simp only [List.map_cons, List.map_nil]
    exact List.Perm.swap "czbins" "ebins" ["map"]

/-- Witness for C3 at a concrete superset mapping and a concrete qualifying
mapping with unvalidated values. -/
theorem is_hist_characterization_witness :
    is_hist (JValue.obj [("ebins", .null), ("czbins", .null),
      ("map", .null), ("extra", .null)]) = false ∧
    is_hist (JValue.obj [("ebins", .num 7), ("czbins", .str "junk"),
      ("map", .null)]) = true := by
  constructor
  · exact is_hist_characterization.2.1 _ (by decide) (by decide) (by decide)
      ⟨"extra", by decide, by decide⟩
  · exact is_hist_characterization.2.2 _ _ _

/-! ### Discovery: `find_hist` as accumulated inserts of `histPaths` -/

lemma dinsertAll_nil (acc : HistList) : dinsertAll acc [] = acc := rfl

lemma dinsertAll_cons (acc : HistList) (p : Option String × JValue)
    (l : List (Option String × JValue)) :
    dinsertAll acc (p :: l) = dinsertAll (dinsert acc p.1 p.2) l := rfl

lemma dinsertAll_append (acc : HistList)
    (l₁ l₂ : List (Option String × JValue)) :
    dinsertAll acc (l₁ ++ l₂) = dinsertAll (dinsertAll acc l₁) l₂ := by
  simp [dinsertAll, List.foldl_append]

mutual

/-- `find_hist` performs exactly the dict assignments of the discovered
(path, record) list, in traversal order, on top of the incoming
accumulator. -/
theorem find_hist_eq_dinsertAll (v : JValue) (k : Option String)
    (acc : HistList) : find_hist v k acc = dinsertAll acc (histPaths v k) := by
  rw [find_hist.eq_def, histPaths.eq_def]
  cases h : is_hist v with
  | true => simp [dinsertAll]
  | false =>
      simp only [Bool.false_eq_true, if_false]
      cases v with
      | obj fields => exact findFields_eq_dinsertAll fields k acc
      | arr items => exact findItems_eq_dinsertAll items 0 k acc
      | num x => rfl
      | str s => rfl
      | boolean b => rfl
      | null => rfl

theorem findFields_eq_dinsertAll (fields : List (String × JValue))
    (k : Option String) (acc : HistList) :
    findFields fields k acc = dinsertAll acc (pathsFields fields k) := by
  match fields with
  | [] => rfl
  | (s, v) :: rest =>
      rw [findFields, pathsFields, dinsertAll_append,
        ← find_hist_eq_dinsertAll v (some (newkey k s)) acc]
      exact findFields_eq_dinsertAll rest k _

theorem findItems_eq_dinsertAll (items : List JValue) (i : Nat)
    (k : Option String) (acc : HistList) :
    findItems items i k acc = dinsertAll acc (pathsItems items i k) := by
  match items with
  | [] => rfl
  | v :: rest =>
      rw [findItems, pathsItems, dinsertAll_append,
        ← find_hist_eq_dinsertAll v (some (newkey k (toString i))) acc]
      exact findItems_eq_dinsertAll rest (i + 1) k _

end

lemma dinsert_fresh (acc : HistList) (k : Option String) (v : JValue)
    (h : k ∉ acc.map Prod.fst) : dinsert acc k v = acc ++ [(k, v)] := by
  rw [dinsert, if_neg]
  simp only [List.any_eq_true, decide_eq_true_eq, not_exists, not_and]
  intro p hp hpk
  exact h (hpk ▸ List.mem_map_of_mem Prod.fst hp)

lemma dinsertAll_fresh (acc : HistList) (l : List (Option String × JValue))
    (hdis : ∀ p ∈ l, p.1 ∉ acc.map Prod.fst)
    (hnd : (l.map Prod.fst).Nodup) : dinsertAll acc l = acc ++ l := by
  induction l generalizing acc with
  | nil => simp [dinsertAll_nil]
  | cons p t ih =>
      rw [dinsertAll_cons, dinsert_fresh acc p.1 p.2 (hdis p (by simp))]
      rw [List.map_cons, List.nodup_cons] at hnd
      rw [ih (acc ++ [(p.1, p.2)])]
      · simp
      · intro q hq
        simp only [List.map_append, List.mem_append, List.map_cons,
          List.map_nil, List.mem_singleton, not_or]
        exact ⟨fun hmem => hdis q (List.mem_cons_of_mem p hq) hmem,
          fun he => hnd.1 (he ▸ List.mem_map_of_mem Prod.fst hq)⟩
      · exact hnd.2

/-- C5: on a structure whose qualifying records produce pairwise distinct
synthesized paths, `find_hist` with a fresh empty accumulator returns
exactly the (path, record) list `histPaths v none` of maximal qualifying
records — child paths are `parent ++ "_" ++ key` (separator omitted for an
empty parent, list children keyed by the stringified index), recursion does
not descend into a qualifying record, and the result has exactly as many
entries as there are such records. -/
theorem find_hist_discovery_complete (v : JValue)
    (hnd : ((histPaths v none).map Prod.fst).Nodup) :
    find_hist v none [] = histPaths v none ∧
    (find_hist v none []).length = (histPaths v none).length := by
  have h := find_hist_eq_dinsertAll v none []
  rw [dinsertAll_fresh [] _ (by simp) hnd, List.nil_append] at h
  exact ⟨h, by rw [h]⟩

lemma is_hist_recA : is_hist recA = true := is_hist_obj_true (by decide)

lemma histPaths_vC5 :
    histPaths vC5 none = [(some "a", recA), (some "b_0", recA)] := by
  have h1 : is_hist (JValue.obj [("a", recA), ("b", JValue.arr [recA])]) =
      false := is_hist_obj_false (by decide)
  have h2 : is_hist (JValue.arr [recA]) = false := by simp [is_hist]
  rw [vC5]
  simp [histPaths.eq_def, pathsFields, pathsItems, newkey, h1, h2,
    is_hist_recA]
  decide

/-- Witness for C5 at the concrete two-record structure `vC5`. -/
theorem find_hist_discovery_complete_witness :
    ((histPaths vC5 none).map Prod.fst).Nodup ∧
    find_hist vC5 none [] = [(some "a", recA), (some "b_0", recA)] := by
  have hnd : ((histPaths vC5 none).map Prod.fst).Nodup := by
    rw [histPaths_vC5]
    decide
  refine ⟨hnd, ?_⟩
  rw [(find_hist_discovery_complete vC5 hnd).1, histPaths_vC5]

lemma is_hist_single (s : String) (v : JValue) :
    is_hist (JValue.obj [(s, v)]) = false :=
  is_hist_obj_false (fun hp => by simpa using hp.length_eq)

lemma histPaths_single (s : String) (r : JValue) (hr : is_hist r = true) :
    histPaths (JValue.obj [(s, r)]) none = [(some s, r)] := by
  simp [histPaths.eq_def, pathsFields, newkey, is_hist_single, hr]

/-- C8: `find_hist` called through its shared mutable default accumulator is
not a pure function of its input.  After a first call on `vC8a` (a record
under path `x`), a second call on `vC8b` (a record under path `y`) returns a
dict that still contains the first call's entry, and differs from what the
very same call returns on the fresh default state — so two runs on the same
input give different results. -/
theorem find_hist_default_impure :
    (find_hist_default (find_hist_default [] vC8a).2 vC8b).1 =
      [(some "x", recA), (some "y", recA)] ∧
    (some "x", recA) ∈ (find_hist_default (find_hist_default [] vC8a).2 vC8b).1 ∧
    (find_hist_default [] vC8b).1 = [(some "y", recA)] ∧
    (find_hist_default (find_hist_default [] vC8a).2 vC8b).1 ≠
      (find_hist_default [] vC8b).1 := by
  have hx : find_hist vC8a none [] = [(some "x", recA)] := by
    rw [vC8a, find_hist_eq_dinsertAll, histPaths_single _ _ is_hist_recA]
    rfl
  have hxy : find_hist vC8b none [(some "x", recA)] =
      [(some "x", recA), (some "y", recA)] := by
    rw [vC8b, find_hist_eq_dinsertAll, histPaths_single _ _ is_hist_recA,
      dinsertAll_cons,
      dinsert_fresh _ _ _ (by decide)]
    rfl
  have hy : find_hist vC8b none [] = [(some "y", recA)] := by
    rw [vC8b, find_hist_eq_dinsertAll, histPaths_single _ _ is_hist_recA]
    rfl
  simp only [find_hist_default, hx, hxy, hy]
  refine ⟨trivial, List.mem_cons_self _ _, trivial, fun h => ?_⟩
  have := congrArg List.length h
  simp at this

/-! ### Numeric evaluation lemmas for `log10` and `pow10` -/

lemma pow10_zero : pow10 0 = 1 := Real.rpow_zero 10

lemma pow10_one : pow10 1 = 10 := Real.rpow_one 10

lemma pow10_natCast (n : ℕ) : pow10 (n : ℝ) = (10 : ℝ) ^ n :=
  Real.rpow_natCast 10 n

lemma pow10_two : pow10 2 = 100 := by
  rw [show (2 : ℝ) = ((2 : ℕ) : ℝ) by norm_num, pow10_natCast]
  norm_num

lemma pow10_three : pow10 3 = 1000 := by
  rw [show (3 : ℝ) = ((3 : ℕ) : ℝ) by norm_num, pow10_natCast]
  norm_num

lemma pow10_four : pow10 4 = 10000 := by
  rw [show (4 : ℝ) = ((4 : ℕ) : ℝ) by norm_num, pow10_natCast]
  norm_num

lemma pow10_log10 {x : ℝ} (hx : 0 < x) : pow10 (log10 x) = x :=
  Real.rpow_logb (by norm_num) (by norm_num) hx

lemma log10_pow10 (x : ℝ) : log10 (pow10 x) = x :=
  Real.logb_rpow (by norm_num) (by norm_num)

lemma log10_one : log10 1 = 0 := Real.logb_one

lemma log10_ten : log10 10 = 1 := by
  have := log10_pow10 1
  rwa [pow10_one] at this

lemma log10_hundred : log10 100 = 2 := by
  have := log10_pow10 2
  rwa [pow10_two] at this

lemma pow10_lt_pow10 {x y : ℝ} (h : x < y) : pow10 x < pow10 y :=
  (Real.rpow_lt_rpow_left_iff (by norm_num)).mpr h

/-! ### Axis-edge extraction -/

lemma map_getD_range (l : List ℝ) :
    (List.range l.length).map (fun i => l.getD i 0) = l := by
  apply List.ext_getElem (by simp)
  intro i h1 h2
  simp [List.getD_eq_getElem?_getD, List.getElem?_eq_getElem h2]

/-- For a nonempty edge list the extraction `[GetXmin] ++ upper edges`
reproduces the stored edges. -/
lemma axisEdges_eq {edges : List ℝ} (h : edges ≠ []) :
    axisEdges edges = edges := by
  match edges, h with
  | e :: rest, _ =>
      rw [axisEdges]
      simp only [List.headI_cons, nbinsOf, List.length_cons,
        Nat.add_sub_cancel]
      congr 1
      have : (fun i => (e :: rest).getD (i + 1) 0) =
          (fun i => rest.getD i 0) := by
        funext i
        rfl
      rw [this, map_getD_range]

lemma axisEdges_length {edges : List ℝ} (h : edges ≠ []) :
    (axisEdges edges).length = nbinsOf edges + 1 := by
  rw [axisEdges_eq h, nbinsOf]
  have := List.length_pos.mpr h
  omega

lemma chain'_map_pow10 {l : List ℝ} (h : List.Chain' (· < ·) l) :
    List.Chain' (· < ·) (l.map pow10) := by
  rw [List.chain'_map]
  exact h.imp (fun a b hab => pow10_lt_pow10 hab)

/-- C2: in the Binary→JSON direction, for 1D, 2D and 3D histograms alike the
returned `ebins` are the stored energy-axis edges mapped elementwise through
`10^x`, while cos-zenith edge lists are returned unchanged; in particular a
2D object with X edges `[0,1,2]` and Y edges `[-1,0,1]` converts to
`ebins = [1,10,100]`, `czbins = [-1,0,1]`. -/
theorem convert_unlogs_energy_axis :
    (∀ h : TH1, h.xedges ≠ [] → (convert1Dhisto h).1 = h.xedges.map pow10) ∧
    (∀ h : TH2F, h.xedges ≠ [] → h.yedges ≠ [] →
      (convert2Dhisto h).ebins = h.xedges.map pow10 ∧
      (convert2Dhisto h).czbins = h.yedges) ∧
    (∀ h : TH3, h.xedges ≠ [] → h.yedges ≠ [] → h.zedges ≠ [] →
      (convert3Dhisto h).ebins = h.zedges.map pow10 ∧
      (convert3Dhisto h).czbins_true = h.yedges ∧
      (convert3Dhisto h).czbins_reco = h.xedges) ∧
    (∀ c : Nat → Nat → ℝ,
      (convert2Dhisto ⟨"h", "h", [0, 1, 2], [-1, 0, 1], c, "", "", true,
        0, 0⟩).ebins = [1, 10, 100] ∧
      (convert2Dhisto ⟨"h", "h", [0, 1, 2], [-1, 0, 1], c, "", "", true,
        0, 0⟩).czbins = [-1, 0, 1]) := by
  have h2 : ∀ h : TH2F, h.xedges ≠ [] → h.yedges ≠ [] →
      (convert2Dhisto h).ebins = h.xedges.map pow10 ∧
      (convert2Dhisto h).czbins = h.yedges := by
    intro h hx hy
    constructor
    · show (axisEdges h.xedges).map pow10 = h.xedges.map pow10
      rw [axisEdges_eq hx]
    · show axisEdges h.yedges = h.yedges
      exact axisEdges_eq hy
  refine ⟨?_, h2, ?_, ?_⟩
  · intro h hx
    show (axisEdges h.xedges).map pow10 = h.xedges.map pow10
    rw [axisEdges_eq hx]
  · intro h hx hy hz
    refine ⟨?_, ?_, ?_⟩
    · show (axisEdges h.zedges).map pow10 = h.zedges.map pow10
      rw [axisEdges_eq hz]
    · show axisEdges h.yedges = h.yedges
      exact axisEdges_eq hy
    · show axisEdges h.xedges = h.xedges
      exact axisEdges_eq hx
  · intro c
    rcases h2 ⟨"h", "h", [0, 1, 2], [-1, 0, 1], c, "", "", true, 0, 0⟩
      (by simp) (by simp) with ⟨he, hc⟩
    refine ⟨?_, by simpa using hc⟩
    rw [he]
    show [pow10 0, pow10 1, pow10 2] = [1, 10, 100]
    rw [pow10_zero, pow10_one, pow10_two]

/-- Witness for C2 at a concrete 1D histogram with a nonempty axis. -/
theorem convert_unlogs_energy_axis_witness :
    (([0, 1] : List ℝ) ≠ []) ∧
    (convert1Dhisto ⟨[0, 1], fun _ => 0⟩).1 = ([0, 1] : List ℝ).map pow10 := by
  refine ⟨by simp, ?_⟩
  exact convert_unlogs_energy_axis.1 ⟨[0, 1], fun _ => 0⟩ (by simp)

/-- C7: for every axis of every converted histogram the extracted edge list
is `[axis minimum]` followed by the bins' upper edges in increasing bin
order, has exactly `Nbins + 1` entries, and is strictly ascending whenever
the stored axis is; in particular a 3-axis object with bin counts (2,3,4)
yields edge lists of lengths (3,4,5). -/
theorem convert_axis_reconstruction :
    (∀ edges : List ℝ, edges ≠ [] →
      axisEdges edges =
        edges.headI ::
          (List.range (nbinsOf edges)).map (fun i => edges.getD (i + 1) 0) ∧
      (axisEdges edges).length = nbinsOf edges + 1 ∧
      (List.Chain' (· < ·) edges → List.Chain' (· < ·) (axisEdges edges))) ∧
    (∀ h : TH1, h.xedges ≠ [] → List.Chain' (· < ·) h.xedges →
      (convert1Dhisto h).1.length = nbinsOf h.xedges + 1 ∧
      List.Chain' (· < ·) (convert1Dhisto h).1) ∧
    (∀ h : TH2F, h.xedges ≠ [] → h.yedges ≠ [] →
      List.Chain' (· < ·) h.xedges → List.Chain' (· < ·) h.yedges →
      ((convert2Dhisto h).ebins.length = nbinsOf h.xedges + 1 ∧
        (convert2Dhisto h).czbins.length = nbinsOf h.yedges + 1) ∧
      List.Chain' (· < ·) (convert2Dhisto h).ebins ∧
      List.Chain' (· < ·) (convert2Dhisto h).czbins) ∧
    (∀ h : TH3, h.xedges ≠ [] → h.yedges ≠ [] → h.zedges ≠ [] →
      List.Chain' (· < ·) h.xedges → List.Chain' (· < ·) h.yedges →
      List.Chain' (· < ·) h.zedges →
      ((convert3Dhisto h).czbins_reco.length = nbinsOf h.xedges + 1 ∧
        (convert3Dhisto h).czbins_true.length = nbinsOf h.yedges + 1 ∧
        (convert3Dhisto h).ebins.length = nbinsOf h.zedges + 1) ∧
      List.Chain' (· < ·) (convert3Dhisto h).czbins_reco ∧
      List.Chain' (· < ·) (convert3Dhisto h).czbins_true ∧
      List.Chain' (· < ·) (convert3Dhisto h).ebins) ∧
    (∀ h : TH3, h.xedges ≠ [] → h.yedges ≠ [] → h.zedges ≠ [] →
      List.Chain' (· < ·) h.xedges → List.Chain' (· < ·) h.yedges →
      List.Chain' (· < ·) h.zedges →
      nbinsOf h.xedges = 2 → nbinsOf h.yedges = 3 → nbinsOf h.zedges = 4 →
      (convert3Dhisto h).czbins_reco.length = 3 ∧
      (convert3Dhisto h).czbins_true.length = 4 ∧
      (convert3Dhisto h).ebins.length = 5) := by
  have hbase : ∀ edges : List ℝ, edges ≠ [] →
      axisEdges edges =
        edges.headI ::
          (List.range (nbinsOf edges)).map (fun i => edges.getD (i + 1) 0) ∧
      (axisEdges edges).length = nbinsOf edges + 1 ∧
      (List.Chain' (· < ·) edges → List.Chain' (· < ·) (axisEdges edges)) := by
    intro edges hne
    exact ⟨rfl, axisEdges_length hne,
      fun hc => (axisEdges_eq hne).symm ▸ hc⟩
  have hmaplen : ∀ edges : List ℝ, edges ≠ [] →
      ((axisEdges edges).map pow10).length = nbinsOf edges + 1 := by
    intro edges hne
    rw [List.length_map]
    exact axisEdges_length hne
  have hmapchain : ∀ edges : List ℝ, edges ≠ [] →
      List.Chain' (· < ·) edges →
      List.Chain' (· < ·) ((axisEdges edges).map pow10) := by
    intro edges hne hc
    exact chain'_map_pow10 ((axisEdges_eq hne).symm ▸ hc)
  have h3 : ∀ h : TH3, h.xedges ≠ [] → h.yedges ≠ [] → h.zedges ≠ [] →
      List.Chain' (· < ·) h.xedges → List.Chain' (· < ·) h.yedges →
      List.Chain' (· < ·) h.zedges →
      ((convert3Dhisto h).czbins_reco.length = nbinsOf h.xedges + 1 ∧
        (convert3Dhisto h).czbins_true.length = nbinsOf h.yedges + 1 ∧
        (convert3Dhisto h).ebins.length = nbinsOf h.zedges + 1) ∧
      List.Chain' (· < ·) (convert3Dhisto h).czbins_reco ∧
      List.Chain' (· < ·) (convert3Dhisto h).czbins_true ∧
      List.Chain' (· < ·) (convert3Dhisto h).ebins := by
    intro h hx hy hz cx cy cz
    refine ⟨⟨axisEdges_length hx, axisEdges_length hy, hmaplen _ hz⟩,
      ?_, ?_, hmapchain _ hz cz⟩
    · show List.Chain' (· < ·) (axisEdges h.xedges)
      exact (axisEdges_eq hx).symm ▸ cx
    · show List.Chain' (· < ·) (axisEdges h.yedges)
      exact (axisEdges_eq hy).symm ▸ cy
  refine ⟨hbase, ?_, ?_, h3, ?_⟩
  · intro h hx cx
    exact ⟨hmaplen _ hx, hmapchain _ hx cx⟩
  · intro h hx hy cx cy
    refine ⟨⟨hmaplen _ hx, axisEdges_length hy⟩, hmapchain _ hx cx, ?_⟩
    show List.Chain' (· < ·) (axisEdges h.yedges)
    exact (axisEdges_eq hy).symm ▸ cy
  · intro h hx hy hz cx cy cz b2 b3 b4
    rcases (h3 h hx hy hz cx cy cz).1 with ⟨l1, l2, l3⟩
    rw [b2] at l1
    rw [b3] at l2
    rw [b4] at l3
    exact ⟨l1, l2, l3⟩

/-- Witness for C7 at a concrete 3-axis object with bin counts (2,3,4). -/
theorem convert_axis_reconstruction_witness :
    (convert3Dhisto ⟨[0, 1, 2], [0, 1, 2, 3], [0, 1, 2, 3, 4],
      fun _ _ _ => 0⟩).czbins_reco.length = 3 ∧
    (convert3Dhisto ⟨[0, 1, 2], [0, 1, 2, 3], [0, 1, 2, 3, 4],
      fun _ _ _ => 0⟩).czbins_true.length = 4 ∧
    (convert3Dhisto ⟨[0, 1, 2], [0, 1, 2, 3], [0, 1, 2, 3, 4],
      fun _ _ _ => 0⟩).ebins.length = 5 := by
  refine convert_axis_reconstruction.2.2.2.2
    ⟨[0, 1, 2], [0, 1, 2, 3], [0, 1, 2, 3, 4], fun _ _ _ => 0⟩
    (by simp) (by simp) (by simp) ?_ ?_ ?_ rfl rfl rfl <;>
    norm_num [List.chain'_cons]

/-! ### Skipping of unrecognized object kinds in `convertTFile` -/

lemma dinsert_keys_subset {κ α : Type} [DecidableEq κ]
    (l : List (κ × α)) (k : κ) (v : α) :
    ((dinsert l k v).map Prod.fst) ⊆ k :: l.map Prod.fst := by
  rw [dinsert]
  split_ifs with h
  · intro x hx
    simp only [List.map_map, List.mem_map, Function.comp] at hx
    rcases hx with ⟨p, hp, hpx⟩
    by_cases hpk : p.1 = k
    · simp only [hpk, if_true] at hpx
      simp [← hpx]
    · simp only [hpk, if_false] at hpx
      exact List.mem_cons_of_mem _ (hpx ▸ List.mem_map_of_mem Prod.fst hp)
  · intro x hx
    simp only [List.map_append, List.mem_append, List.map_cons, List.map_nil,
      List.mem_singleton] at hx
    rcases hx with hx | hx
    · exact List.mem_cons_of_mem _ hx
    · simp [hx]

lemma convertTFile_cons_skip (nm cls : String) (o : RObj)
    (rest : List (String × String × RObj)) (acc : List (String × JTree))
    (h1 : startswith cls "TH1" = false) (h2 : startswith cls "TH2" = false)
    (h3 : startswith cls "TH3" = false) (h4 : cls ≠ "TDirectoryFile") :
    convertTFile ((nm, cls, o) :: rest) acc = convertTFile rest acc := by
  rw [convertTFile.eq_def]
  dsimp only
  rw [if_neg (by simp [h1]), if_neg (by simp [h2]), if_neg (by simp [h3]),
    if_neg h4]

lemma convertTFile_keys_subset (keys : List (String × String × RObj)) :
    ∀ acc nm, nm ∈ (convertTFile keys acc).map Prod.fst →
      nm ∈ acc.map Prod.fst ∨ nm ∈ keys.map (fun k => k.1) := by
  induction keys with
  | nil =>
      intro acc nm h
      rw [convertTFile.eq_def] at h
      exact Or.inl h
  | cons hd rest ih =>
      obtain ⟨nm', cls', o'⟩ := hd
      intro acc nm h
      rw [convertTFile.eq_def] at h
      dsimp only at h
      have step : ∀ t : JTree,
          nm ∈ (convertTFile rest (dinsert acc nm' t)).map Prod.fst →
          nm ∈ acc.map Prod.fst ∨
            nm ∈ ((nm', cls', o') :: rest).map (fun k => k.1) := by
        intro t ht
        rcases ih _ nm ht with hin | hin
        · rcases List.mem_cons.mp (dinsert_keys_subset acc nm' t hin) with
            he | hin'
          · exact Or.inr (by simp [he])
          · exact Or.inl hin'
        · exact Or.inr (List.mem_cons_of_mem _ hin)
      split_ifs at h with t1 t2 t3 t4
      · exact step _ h
      · exact step _ h
      · exact step _ h
      · cases o' with
        | dir ks => exact step _ h
        | th1 hh => exact step _ h
        | th2 hh => exact step _ h
        | th3 hh => exact step _ h
        | other => exact step _ h
      · rcases ih _ nm h with hin | hin
        · exact Or.inl hin
        · exact Or.inr (List.mem_cons_of_mem _ hin)

lemma convertTFile_middle_skip (nm cls : String) (o : RObj)
    (before after : List (String × String × RObj))
    (h1 : startswith cls "TH1" = false) (h2 : startswith cls "TH2" = false)
    (h3 : startswith cls "TH3" = false) (h4 : cls ≠ "TDirectoryFile") :
    ∀ acc, convertTFile (before ++ (nm, cls, o) :: after) acc =
      convertTFile (before ++ after) acc := by
  induction before with
  | nil =>
      intro acc
      simpa using convertTFile_cons_skip nm cls o after acc h1 h2 h3 h4
  | cons hd rest ih =>
      obtain ⟨nm', cls', o'⟩ := hd
      intro acc
      rw [List.cons_append, List.cons_append, convertTFile.eq_def,
        convertTFile.eq_def]
      dsimp only
      split_ifs with t1 t2 t3 t4
      · exact ih _
      · exact ih _
      · exact ih _
      · cases o' with
        | dir ks => exact ih _
        | th1 hh => exact ih _
        | th2 hh => exact ih _
        | th3 hh => exact ih _
        | other => exact ih _
      · exact ih _

/-- C9: a container entry whose class tag starts with none of `TH1`, `TH2`,
`TH3` and is not a `TDirectoryFile` is skipped: the conversion of all
remaining entries proceeds unchanged (anywhere in the key list), and when
its name is fresh the returned mapping has no entry for it. -/
theorem convertTFile_skips_unknown :
    (∀ (nm cls : String) (o : RObj) (before after : List (String × String × RObj))
      (acc : List (String × JTree)),
      startswith cls "TH1" = false → startswith cls "TH2" = false →
      startswith cls "TH3" = false → cls ≠ "TDirectoryFile" →
      convertTFile (before ++ (nm, cls, o) :: after) acc =
        convertTFile (before ++ after) acc) ∧
    (∀ (nm cls : String) (o : RObj) (rest : List (String × String × RObj))
      (acc : List (String × JTree)),
      startswith cls "TH1" = false → startswith cls "TH2" = false →
      startswith cls "TH3" = false → cls ≠ "TDirectoryFile" →
      nm ∉ acc.map Prod.fst → nm ∉ rest.map (fun k => k.1) →
      nm ∉ (convertTFile ((nm, cls, o) :: rest) acc).map Prod.fst) := by
  constructor
  · intro nm cls o before after acc h1 h2 h3 h4
    exact convertTFile_middle_skip nm cls o before after h1 h2 h3 h4 acc
  · intro nm cls o rest acc h1 h2 h3 h4 hacc hrest hmem
    rw [convertTFile_cons_skip nm cls o rest acc h1 h2 h3 h4] at hmem
    rcases convertTFile_keys_subset rest acc nm hmem with h | h
    · exact hacc h
    · exact hrest h

/-- Witness for C9: a `TGraph` entry between two `TH1F` entries is dropped
and contributes no key to the result. -/
theorem convertTFile_skips_unknown_witness :
    convertTFile [("a", "TH1F", RObj.th1 ⟨[0, 1], fun _ => 0⟩),
        ("g", "TGraph", RObj.other),
        ("b", "TH1F", RObj.th1 ⟨[0, 1], fun _ => 0⟩)] [] =
      convertTFile [("a", "TH1F", RObj.th1 ⟨[0, 1], fun _ => 0⟩),
        ("b", "TH1F", RObj.th1 ⟨[0, 1], fun _ => 0⟩)] [] ∧
    "g" ∉ (convertTFile [("g", "TGraph", RObj.other),
        ("b", "TH1F", RObj.th1 ⟨[0, 1], fun _ => 0⟩)] []).map Prod.fst := by
  constructor
  · exact convertTFile_skips_unknown.1 "g" "TGraph" RObj.other
      [("a", "TH1F", RObj.th1 ⟨[0, 1], fun _ => 0⟩)]
      [("b", "TH1F", RObj.th1 ⟨[0, 1], fun _ => 0⟩)] [] (by decide)
      (by decide) (by decide) (by decide)
  · exact convertTFile_skips_unknown.2 "g" "TGraph" RObj.other
      [("b", "TH1F", RObj.th1 ⟨[0, 1], fun _ => 0⟩)] [] (by decide)
      (by decide) (by decide) (by decide) (by simp) (by simp)

/-! ### The bin-fill loop of `json2root` -/

lemma setBinContent_content (h : TH2F) (i j : Nat) (v : ℝ) (a b : Nat) :
    (h.setBinContent i j v).content a b =
      if a = i ∧ b = j then v else h.content a b := rfl

lemma mem_enumFrom_le {α : Type} {q : Nat × α} {n : Nat} {l : List α}
    (h : q ∈ List.enumFrom n l) : n ≤ q.1 := by
  obtain ⟨i, a⟩ := q
  exact (List.mk_mem_enumFrom_iff_le_and_getElem?_sub.mp h).1

lemma fillRow_same_fields (h : TH2F) (ie : Nat) (row : List ℝ) :
    (fillRow h ie row).name = h.name ∧ (fillRow h ie row).title = h.title ∧
    (fillRow h ie row).xedges = h.xedges ∧
    (fillRow h ie row).yedges = h.yedges := by
  rw [fillRow]
  generalize row.enum = l
  induction l generalizing h with
  | nil => exact ⟨rfl, rfl, rfl, rfl⟩
  | cons q t ih =>
      rw [List.foldl_cons]
      exact ih _

lemma fillMap_same_fields (h : TH2F) (m : List (List ℝ)) :
    (fillMap h m).name = h.name ∧ (fillMap h m).title = h.title ∧
    (fillMap h m).xedges = h.xedges ∧ (fillMap h m).yedges = h.yedges := by
  rw [fillMap]
  generalize m.enum = l
  induction l generalizing h with
  | nil => exact ⟨rfl, rfl, rfl, rfl⟩
  | cons p t ih =>
      rw [List.foldl_cons]
      rcases ih (fillRow h p.1 p.2) with ⟨h1, h2, h3, h4⟩
      rcases fillRow_same_fields h p.1 p.2 with ⟨g1, g2, g3, g4⟩
      exact ⟨h1.trans g1, h2.trans g2, h3.trans g3, h4.trans g4⟩

lemma foldl_setBin_content_miss (l : List (Nat × ℝ)) (ie a b : Nat)
    (hmiss : ∀ q ∈ l, ¬(a = ie + 1 ∧ b = q.1 + 1)) :
    ∀ h : TH2F,
      (l.foldl (fun hh2 q => hh2.setBinContent (ie + 1) (q.1 + 1) q.2)
        h).content a b = h.content a b := by
  induction l with
  | nil => intro h; rfl
  | cons q t ih =>
      intro h
      rw [List.foldl_cons, ih (fun q' hq' => hmiss q' (List.mem_cons_of_mem _ hq')),
        setBinContent_content, if_neg (hmiss q (List.mem_cons_self _ _))]

lemma fillRow_content_other (h : TH2F) (ie : Nat) (row : List ℝ) (a b : Nat)
    (hne : a ≠ ie + 1) :
    (fillRow h ie row).content a b = h.content a b := by
  rw [fillRow]
  exact foldl_setBin_content_miss _ ie a b (fun q _ hc => hne hc.1) h

lemma fillRow_enumFrom_content_at (row : List ℝ) (ie : Nat) :
    ∀ (off j : Nat), j < row.length → ∀ h : TH2F,
      ((row.enumFrom off).foldl
        (fun hh2 q => hh2.setBinContent (ie + 1) (q.1 + 1) q.2) h).content
          (ie + 1) (off + j + 1) = row.getD j 0 := by
  induction row with
  | nil => intro off j hj; simp at hj
  | cons c rest ih =>
      intro off j hj h
      rw [show List.enumFrom off (c :: rest) =
        (off, c) :: List.enumFrom (off + 1) rest from rfl, List.foldl_cons]
      cases j with
      | zero =>
          rw [foldl_setBin_content_miss _ ie _ _ ?miss, setBinContent_content,
            if_pos ⟨rfl, rfl⟩]
          · rfl
          case miss =>
            intro q hq hc
            have hle : off + 1 ≤ q.1 := mem_enumFrom_le hq
            omega
      | succ j' =>
          have harith : off + (j' + 1) + 1 = (off + 1) + j' + 1 := by omega
          rw [harith]
          exact ih (off + 1) j' (by simpa using hj) _

lemma fillRow_content_at (h : TH2F) (ie : Nat) (row : List ℝ) (j : Nat)
    (hj : j < row.length) :
    (fillRow h ie row).content (ie + 1) (j + 1) = row.getD j 0 := by
  have := fillRow_enumFrom_content_at row ie 0 j hj h
  simpa [fillRow] using this

lemma foldl_fillRow_content_miss (l : List (Nat × List ℝ)) (a b : Nat)
    (hmiss : ∀ p ∈ l, a ≠ p.1 + 1) :
    ∀ h : TH2F,
      (l.foldl (fun hh p => fillRow hh p.1 p.2) h).content a b =
        h.content a b := by
  induction l with
  | nil => intro h; rfl
  | cons p t ih =>
      intro h
      rw [List.foldl_cons, ih (fun p' hp' => hmiss p' (List.mem_cons_of_mem _ hp')),
        fillRow_content_other _ _ _ _ _ (hmiss p (List.mem_cons_self _ _))]

lemma fillMap_enumFrom_content_at (m : List (List ℝ)) :
    ∀ (off i j : Nat), i < m.length → j < (m.getD i []).length →
      ∀ h : TH2F,
        ((m.enumFrom off).foldl (fun hh p => fillRow hh p.1 p.2) h).content
          (off + i + 1) (j + 1) = (m.getD i []).getD j 0 := by
  induction m with
  | nil => intro off i j hi; simp at hi
  | cons row rest ih =>
      intro off i j hi hj h
      rw [show List.enumFrom off (row :: rest) =
        (off, row) :: List.enumFrom (off + 1) rest from rfl, List.foldl_cons]
      cases i with
      | zero =>
          rw [foldl_fillRow_content_miss _ _ _ ?miss]
          · exact fillRow_content_at h off row j (by simpa using hj)
          case miss =>
            intro p hp
            have hle : off + 1 ≤ p.1 := mem_enumFrom_le hp
            omega
      | succ i' =>
          have harith : off + (i' + 1) + 1 = (off + 1) + i' + 1 := by omega
          rw [harith]
          exact ih (off + 1) i' j (by simpa using hi) (by simpa using hj) _

/-- The filled histogram holds `map[i][j]` at bin `(i+1, j+1)` for every
in-range index pair. -/
lemma fillMap_content (h : TH2F) (m : List (List ℝ)) (i j : Nat)
    (hi : i < m.length) (hj : j < (m.getD i []).length) :
    (fillMap h m).content (i + 1) (j + 1) = (m.getD i []).getD j 0 := by
  have := fillMap_enumFrom_content_at m 0 i j hi hj h
  simpa [fillMap] using this

/-! ### Projections of the histogram built by `json2root` -/

lemma json2rootRecord_log (key : String) (hist : HistRecord)
    (hlog : is_logarithmic hist.ebins defaultMaxdev) :
    (json2rootRecord key hist).xedges = hist.ebins.map log10 ∧
    (json2rootRecord key hist).xtitle = "log_{10}(E/GeV)" := by
  constructor
  · dsimp only [json2rootRecord]
    rw [(fillMap_same_fields _ _).2.2.1]
    dsimp only
    rw [if_pos hlog]
  · dsimp only [json2rootRecord]
    rw [if_pos hlog]

lemma json2rootRecord_linear (key : String) (hist : HistRecord)
    (hlin : ¬ is_logarithmic hist.ebins defaultMaxdev) :
    (json2rootRecord key hist).xedges = hist.ebins ∧
    (json2rootRecord key hist).xtitle = "E/GeV" := by
  constructor
  · dsimp only [json2rootRecord]
    rw [(fillMap_same_fields _ _).2.2.1]
    dsimp only
    rw [if_neg hlin]
  · dsimp only [json2rootRecord]
    rw [if_neg hlin]

lemma json2rootRecord_base_fields (key : String) (hist : HistRecord) :
    (json2rootRecord key hist).name = key ∧
    (json2rootRecord key hist).title = key ∧
    (json2rootRecord key hist).yedges = hist.czbins := by
  refine ⟨?_, ?_, ?_⟩
  · dsimp only [json2rootRecord]
    rw [(fillMap_same_fields _ _).1]
  · dsimp only [json2rootRecord]
    rw [(fillMap_same_fields _ _).2.1]
  · dsimp only [json2rootRecord]
    rw [(fillMap_same_fields _ _).2.2.2]

lemma json2rootRecord_content (key : String) (hist : HistRecord) (i j : Nat)
    (hi : i < hist.map.length) (hj : j < (hist.map.getD i []).length) :
    (json2rootRecord key hist).content (i + 1) (j + 1) =
      (hist.map.getD i []).getD j 0 := by
  dsimp only [json2rootRecord]
  exact fillMap_content _ hist.map i j hi hj

/-- C4: for an ascending edge sequence of length at least 2, `is_logarithmic`
(at its default tolerance 1e-5) returns false when some edge is negative,
and otherwise holds iff the maximal absolute difference between the edges
and the reference grid — same element count, evenly spaced in log10 space
between the first and last edge — is strictly below the tolerance. -/
theorem is_logarithmic_characterization (edges : List ℝ)
    (hlen : 2 ≤ edges.length) (hasc : List.Chain' (· < ·) edges) :
    ((∃ x ∈ edges, x < 0) → ¬ is_logarithmic edges defaultMaxdev) ∧
    ((∀ x ∈ edges, 0 ≤ x) →
      (is_logarithmic edges defaultMaxdev ↔
        amax (List.zipWith (fun a b => |a - b|) edges
          ((List.range edges.length).map (fun i =>
            pow10 (log10 edges.headI +
              (i : ℝ) * (log10 edges.getLastI - log10 edges.headI) /
                ((edges.length : ℝ) - 1))))) < defaultMaxdev)) := by
  constructor
  · intro hex hlog
    exact hlog.1 hex
  · intro hnn
    have hgrid : logspace (log10 edges.headI) (log10 edges.getLastI)
        edges.length =
        (List.range edges.length).map (fun i =>
          pow10 (log10 edges.headI +
            (i : ℝ) * (log10 edges.getLastI - log10 edges.headI) /
              ((edges.length : ℝ) - 1))) := by
      rw [logspace, linspace, List.map_map]
      rfl
    show ((¬ ∃ x ∈ edges, x < 0) ∧ _) ↔ _
    rw [hgrid]
    constructor
    · rintro ⟨-, h2⟩
      exact h2
    · intro h2
      refine ⟨fun hex => ?_, h2⟩
      obtain ⟨x, hx, hlt⟩ := hex
      exact absurd hlt (not_lt.mpr (hnn x hx))

/-- Witness for C4 at the concrete log-spaced edges `[1, 10, 100]`. -/
theorem is_logarithmic_characterization_witness :
    ((∃ x ∈ ([1, 10, 100] : List ℝ), x < 0) →
      ¬ is_logarithmic [1, 10, 100] defaultMaxdev) ∧
    ((∀ x ∈ ([1, 10, 100] : List ℝ), 0 ≤ x) →
      (is_logarithmic [1, 10, 100] defaultMaxdev ↔
        amax (List.zipWith (fun a b => |a - b|) [1, 10, 100]
          ((List.range ([1, 10, 100] : List ℝ).length).map (fun i =>
            pow10 (log10 ([1, 10, 100] : List ℝ).headI +
              (i : ℝ) * (log10 ([1, 10, 100] : List ℝ).getLastI -
                log10 ([1, 10, 100] : List ℝ).headI) /
                ((([1, 10, 100] : List ℝ).length : ℝ) - 1))))) <
          defaultMaxdev)) :=
  is_logarithmic_characterization [1, 10, 100] (by norm_num)
    (by norm_num [List.chain'_cons])

/-- C10: a 2-point ascending positive edge sequence is always classified as
logarithmic (the 2-point reference grid is exactly the two endpoints), so
`json2root` log10-transforms every single-bin energy axis with positive
edges and labels it logarithmically. -/
theorem single_bin_axis_logarithmic (a b : ℝ) (ha : 0 < a) (hb : 0 < b)
    (hab : a < b) :
    is_logarithmic [a, b] defaultMaxdev ∧
    (∀ (key : String) (cz : List ℝ) (m : List (List ℝ)),
      (json2rootRecord key ⟨[a, b], cz, m⟩).xedges = [log10 a, log10 b] ∧
      (json2rootRecord key ⟨[a, b], cz, m⟩).xtitle = "log_{10}(E/GeV)") := by
  have h1 : logspace (log10 a) (log10 b) 2 = [a, b] := by
    rw [logspace, linspace, show List.range 2 = [0, 1] from rfl]
    show [pow10 (log10 a + ((0 : ℕ) : ℝ) * (log10 b - log10 a) /
        (((2 : ℕ) : ℝ) - 1)),
      pow10 (log10 a + ((1 : ℕ) : ℝ) * (log10 b - log10 a) /
        (((2 : ℕ) : ℝ) - 1))] = [a, b]
    have e0 : log10 a + ((0 : ℕ) : ℝ) * (log10 b - log10 a) /
        (((2 : ℕ) : ℝ) - 1) = log10 a := by push_cast; ring
    have e1 : log10 a + ((1 : ℕ) : ℝ) * (log10 b - log10 a) /
        (((2 : ℕ) : ℝ) - 1) = log10 b := by push_cast; ring
    rw [e0, e1, pow10_log10 ha, pow10_log10 hb]
  have hlog : is_logarithmic [a, b] defaultMaxdev := by
    constructor
    · rintro ⟨x, hx, hlt⟩
      simp only [List.mem_cons, List.not_mem_nil, or_false] at hx
      rcases hx with rfl | rfl <;> linarith
    · show amax (List.zipWith (fun x y => |x - y|) [a, b]
        (logspace (log10 a) (log10 b) 2)) < defaultMaxdev
      rw [h1, show List.zipWith (fun x y => |x - y|) [a, b] [a, b] =
        [0, 0] by simp]
      show max (0 : ℝ) 0 < defaultMaxdev
      rw [defaultMaxdev]
      norm_num
  refine ⟨hlog, fun key cz m => ?_⟩
  have hr := json2rootRecord_log key ⟨[a, b], cz, m⟩ hlog
  simpa using hr

/-- Witness for C10 at the concrete single-bin axis `[1, 2]`. -/
theorem single_bin_axis_logarithmic_witness :
    is_logarithmic [1, 2] defaultMaxdev ∧
    (json2rootRecord "k" ⟨[1, 2], [0, 1], [[3]]⟩).xedges =
      [log10 1, log10 2] ∧
    (json2rootRecord "k" ⟨[1, 2], [0, 1], [[3]]⟩).xtitle =
      "log_{10}(E/GeV)" := by
  have h := single_bin_axis_logarithmic 1 2 (by norm_num) (by norm_num)
    (by norm_num)
  exact ⟨h.1, (h.2 "k" [0, 1] [[3]]).1, (h.2 "k" [0, 1] [[3]]).2⟩

lemma getD_eq_get {α : Type} (l : List α) (d : α) (i : Nat)
    (h : i < l.length) : l.getD i d = l[i] := by
  rw [List.getD_eq_getElem?_getD, List.getElem?_eq_getElem h]
  rfl

lemma logspace_1_100_3 : logspace (log10 1) (log10 100) 3 = [1, 10, 100] := by
  rw [log10_one, log10_hundred, logspace, linspace,
    show List.range 3 = [0, 1, 2] from rfl]
  show [pow10 (0 + ((0 : ℕ) : ℝ) * (2 - 0) / (((3 : ℕ) : ℝ) - 1)),
    pow10 (0 + ((1 : ℕ) : ℝ) * (2 - 0) / (((3 : ℕ) : ℝ) - 1)),
    pow10 (0 + ((2 : ℕ) : ℝ) * (2 - 0) / (((3 : ℕ) : ℝ) - 1))] = [1, 10, 100]
  have e0 : 0 + ((0 : ℕ) : ℝ) * (2 - 0) / (((3 : ℕ) : ℝ) - 1) = 0 := by
    push_cast
    ring
  have e1 : 0 + ((1 : ℕ) : ℝ) * (2 - 0) / (((3 : ℕ) : ℝ) - 1) = 1 := by
    push_cast
    norm_num
  have e2 : 0 + ((2 : ℕ) : ℝ) * (2 - 0) / (((3 : ℕ) : ℝ) - 1) = 2 := by
    push_cast
    norm_num
  rw [e0, e1, e2, pow10_zero, pow10_one, pow10_two]

lemma is_logarithmic_c6 : is_logarithmic [1, 10, 100] defaultMaxdev := by
  constructor
  · rintro ⟨x, hx, hlt⟩
    simp only [List.mem_cons, List.not_mem_nil, or_false] at hx
    rcases hx with rfl | rfl | rfl <;> norm_num at hlt
  · show amax (List.zipWith (fun a b => |a - b|) [1, 10, 100]
      (logspace (log10 1) (log10 100) 3)) < defaultMaxdev
    rw [logspace_1_100_3,
      show List.zipWith (fun a b => |a - b|) ([1, 10, 100] : List ℝ)
        [1, 10, 100] = [0, 0, 0] by norm_num]
    show max (max (0 : ℝ) 0) 0 < defaultMaxdev
    rw [defaultMaxdev]
    norm_num

lemma is_hist_jC6 : is_hist jC6 = true := is_hist_obj_true (by decide)

lemma recordOf_jC6 : recordOfJValue jC6 = recC6 := rfl

/-- C6: in the JSON→Binary direction each discovered record is built as a
2D object named by its path, with log10-transformed edges and logarithmic
axis title when the energy edges are detected as logarithmic (kept linear
with the linear title otherwise), and bin contents filled bin-for-bin from
`map` with the energy index first; on the example document
`{"a": {...}}` this yields one object named `a`, with bin counts (2,2),
the logarithmic energy title, and contents (1,2,3,4). -/
theorem json2root_per_record :
    (∀ (key : String) (hist : HistRecord),
      is_logarithmic hist.ebins defaultMaxdev →
      (json2rootRecord key hist).xedges = hist.ebins.map log10 ∧
      (json2rootRecord key hist).xtitle = "log_{10}(E/GeV)") ∧
    (∀ (key : String) (hist : HistRecord),
      ¬ is_logarithmic hist.ebins defaultMaxdev →
      (json2rootRecord key hist).xedges = hist.ebins ∧
      (json2rootRecord key hist).xtitle = "E/GeV") ∧
    (∀ (key : String) (hist : HistRecord),
      (json2rootRecord key hist).name = key ∧
      (json2rootRecord key hist).title = key ∧
      (json2rootRecord key hist).yedges = hist.czbins) ∧
    (∀ (key : String) (hist : HistRecord) (i j : Nat),
      i < hist.map.length → j < (hist.map.getD i []).length →
      (json2rootRecord key hist).content (i + 1) (j + 1) =
        (hist.map.getD i []).getD j 0) ∧
    (json2root dataC6 = [json2rootRecord "a" recC6] ∧
      (json2rootRecord "a" recC6).name = "a" ∧
      nbinsOf (json2rootRecord "a" recC6).xedges = 2 ∧
      nbinsOf (json2rootRecord "a" recC6).yedges = 2 ∧
      (json2rootRecord "a" recC6).xtitle = "log_{10}(E/GeV)" ∧
      (json2rootRecord "a" recC6).content 1 1 = 1 ∧
      (json2rootRecord "a" recC6).content 1 2 = 2 ∧
      (json2rootRecord "a" recC6).content 2 1 = 3 ∧
      (json2rootRecord "a" recC6).content 2 2 = 4) := by
  have hfind : find_hist dataC6 none [] = [(some "a", jC6)] := by
    rw [dataC6, find_hist_eq_dinsertAll, histPaths_single _ _ is_hist_jC6]
    rfl
  have hlog6 : is_logarithmic recC6.ebins defaultMaxdev := is_logarithmic_c6
  refine ⟨json2rootRecord_log, json2rootRecord_linear,
    json2rootRecord_base_fields, json2rootRecord_content,
    ?_, (json2rootRecord_base_fields "a" recC6).1, ?_, ?_,
    (json2rootRecord_log "a" recC6 hlog6).2, ?_, ?_, ?_, ?_⟩
  · rw [json2root, hfind]
    simp only [List.map_cons, List.map_nil]
    rw [recordOf_jC6]
    rfl
  · rw [nbinsOf, (json2rootRecord_log "a" recC6 hlog6).1]
    rfl
  · rw [nbinsOf, (json2rootRecord_base_fields "a" recC6).2.2]
    rfl
  · exact json2rootRecord_content "a" recC6 0 0 (by norm_num [recC6])
      (by norm_num [recC6])
  · exact json2rootRecord_content "a" recC6 0 1 (by norm_num [recC6])
      (by norm_num [recC6])
  · exact json2rootRecord_content "a" recC6 1 0 (by norm_num [recC6])
      (by norm_num [recC6])
  · exact json2rootRecord_content "a" recC6 1 1 (by norm_num [recC6])
      (by norm_num [recC6])

/-- Witness for C6 at the example record, which is detected as
logarithmic. -/
theorem json2root_per_record_witness :
    (json2rootRecord "k" recC6).xedges = recC6.ebins.map log10 ∧
    (json2rootRecord "k" recC6).xtitle = "log_{10}(E/GeV)" :=
  json2root_per_record.1 "k" recC6 is_logarithmic_c6

/-! ### The 2D round trip -/

lemma not_logarithmic_c1 : ¬ is_logarithmic [1, 2, 100] defaultMaxdev := by
  rintro ⟨-, hmax⟩
  have hmax' : amax (List.zipWith (fun a b => |a - b|) [1, 2, 100]
      (logspace (log10 1) (log10 100) 3)) < defaultMaxdev := hmax
  rw [logspace_1_100_3,
    show List.zipWith (fun a b => |a - b|) ([1, 2, 100] : List ℝ)
      [1, 10, 100] = [0, 8, 0] by norm_num] at hmax'
  have h8 : amax [0, 8, 0] = (8 : ℝ) := by
    show max (max (0 : ℝ) 8) 0 = 8
    norm_num
  rw [h8, defaultMaxdev] at hmax'
  norm_num at hmax'

/-- C1 counterexample: for the record with linear-spaced energy edges
`[1, 2, 100]` (not detected as logarithmic), the JSON→Binary→JSON round
trip does NOT return the original `ebins`: the returned first edge is 10
while the original is 1, because `convert2Dhisto` always applies `10^x` to
the energy axis even when it was stored linear. -/
theorem roundtrip_2d_counterexample :
    ¬ is_logarithmic recC1.ebins defaultMaxdev ∧
    (convert2Dhisto (json2rootRecord "a" recC1)).ebins.headI = 10 ∧
    recC1.ebins.headI = 1 ∧
    (convert2Dhisto (json2rootRecord "a" recC1)).ebins ≠ recC1.ebins := by
  have hnl : ¬ is_logarithmic recC1.ebins defaultMaxdev := not_logarithmic_c1
  have hx : (json2rootRecord "a" recC1).xedges = [1, 2, 100] :=
    (json2rootRecord_linear "a" recC1 hnl).1
  have he : (convert2Dhisto (json2rootRecord "a" recC1)).ebins =
      [pow10 1, pow10 2, pow10 100] := by
    show (axisEdges (json2rootRecord "a" recC1).xedges).map pow10 = _
    rw [hx]
    rfl
  refine ⟨hnl, ?_, rfl, ?_⟩
  · rw [he]
    exact pow10_one
  · intro hcontra
    have hh := congrArg List.headI hcontra
    rw [he] at hh
    have hh' : pow10 1 = 1 := hh
    rw [pow10_one] at hh'
    norm_num at hh'

/-- C1 amended: for a record with linear-spaced energy edges (and the §3
shape invariant), the JSON→Binary→JSON round trip returns `czbins` equal to
the original and the `map` grid unchanged entry-for-entry, but `ebins`
equal to the elementwise `10^x` of the original (the Binary→JSON direction
unconditionally un-logs the energy axis). -/
theorem roundtrip_2d_amended (key : String) (rec : HistRecord)
    (hlin : ¬ is_logarithmic rec.ebins defaultMaxdev)
    (hne : rec.ebins ≠ []) (hcz : rec.czbins ≠ [])
    (hrows : rec.map.length = rec.ebins.length - 1)
    (hcols : ∀ i < rec.map.length,
      (rec.map.getD i []).length = rec.czbins.length - 1) :
    convert2Dhisto (json2rootRecord key rec) =
      ⟨rec.ebins.map pow10, rec.czbins, rec.map⟩ := by
  have hx : (json2rootRecord key rec).xedges = rec.ebins :=
    (json2rootRecord_linear key rec hlin).1
  have hy : (json2rootRecord key rec).yedges = rec.czbins :=
    (json2rootRecord_base_fields key rec).2.2
  have e1 : (convert2Dhisto (json2rootRecord key rec)).ebins =
      rec.ebins.map pow10 := by
    show (axisEdges (json2rootRecord key rec).xedges).map pow10 = _
    rw [hx, axisEdges_eq hne]
  have e2 : (convert2Dhisto (json2rootRecord key rec)).czbins =
      rec.czbins := by
    show axisEdges (json2rootRecord key rec).yedges = _
    rw [hy, axisEdges_eq hcz]
  have e3 : (convert2Dhisto (json2rootRecord key rec)).map = rec.map := by
    show (List.range
        (((axisEdges (json2rootRecord key rec).xedges).map pow10).length - 1)).map
        (fun ie => (List.range
          ((axisEdges (json2rootRecord key rec).yedges).length - 1)).map
          (fun icz => (json2rootRecord key rec).content (ie + 1) (icz + 1))) =
      rec.map
    rw [hx, hy, axisEdges_eq hne, axisEdges_eq hcz, List.length_map]
    apply List.ext_getElem
    · simp [hrows]
    · intro i h1 h2
      simp only [List.getElem_map, List.getElem_range]
      apply List.ext_getElem
      · rw [List.length_map, List.length_range]
        have hc := hcols i h2
        rw [getD_eq_get _ _ _ h2] at hc
        exact hc.symm
      · intro j hj1 hj2
        simp only [List.getElem_map, List.getElem_range]
        have hi' : i < rec.map.length := h2
        have hj' : j < (rec.map.getD i []).length := by
          rw [getD_eq_get _ _ _ hi']
          exact hj2
        rw [json2rootRecord_content key rec i j hi' hj',
          getD_eq_get _ _ _ hi', getD_eq_get _ _ _ hj2]
  have heta : convert2Dhisto (json2rootRecord key rec) =
      ⟨(convert2Dhisto (json2rootRecord key rec)).ebins,
        (convert2Dhisto (json2rootRecord key rec)).czbins,
        (convert2Dhisto (json2rootRecord key rec)).map⟩ := rfl
  rw [heta, e1, e2, e3]

/-- Witness for the amended C1 at the concrete linear record `recC1`. -/
theorem roundtrip_2d_amended_witness :
    ¬ is_logarithmic recC1.ebins defaultMaxdev ∧
    convert2Dhisto (json2rootRecord "a" recC1) =
      ⟨recC1.ebins.map pow10, recC1.czbins, recC1.map⟩ := by
  refine ⟨not_logarithmic_c1, ?_⟩
  exact roundtrip_2d_amended "a" recC1 not_logarithmic_c1 (by simp [recC1])
    (by simp [recC1]) (by simp [recC1])
    (by
      intro i hi
      have h2 : i < 2 := by simpa [recC1] using hi
      interval_cases i <;> rfl)

end RootJson
